import Mathlib

/-!
Shallow embedding of the `speaker_project` playback core.

The scheduler (`src/play.rs`), the serial device retry loop (`src/device.rs`)
and the orchestrator's result collection (`src/main.rs`) are translated into
executable Lean definitions.  Rust `f64` arithmetic is modelled by exact
rational arithmetic (`ℚ`); the `u32`/`usize`/`u16` machine integers are
modelled by `ℕ` with explicit reduction modulo `2^32`/`2^64` (wrapping, as in
release-profile Rust) or explicit saturation where the source performs an
`as` cast.  `tokio::time::Instant`s are modelled as `ℤ` microsecond offsets
from the common post-barrier origin.  Rational division by zero is `0` in
Lean while `f64` division by zero is an infinity, so every theorem about a
quotient carries a positivity hypothesis on its divisor.
-/

namespace Speaker

/-- Rust `f64::round`: round half away from zero.  For a nonnegative value this
is `round` (round half up); a negative value is rounded as the negation of its
absolute value. -/
def rustRound (x : ℚ) : ℤ :=
  if 0 ≤ x then round x else -round (-x)

/-- Rust cast of an (exactly represented) `f64` value to an unsigned integer
type whose largest value is `hi` (`as u16`, `as u32`): truncate toward zero and
saturate at the type's bounds (negative values go to `0`). -/
def rustCastU (hi : ℕ) (x : ℚ) : ℕ :=
  min hi (max ⌊x⌋ 0).toNat

/-- Largest value of Rust `u16`. -/
def u16Max : ℕ := 65535

/-- Largest value of Rust `u32`. -/
def u32Max : ℕ := 2 ^ 32 - 1

/-- Number of values representable in Rust `usize` (64-bit target). -/
def usizeCard : ℕ := 2 ^ 64

/-- `play.rs` lines 36–39: the tone-frequency table for octave 8, indexed by
the note within the octave (C, C#, …, B). -/
def octave_8_freqs : Fin 12 → ℚ
  | 0 => 4186
  | 1 => 4434
  | 2 => 4699
  | 3 => 4978
  | 4 => 5274
  | 5 => 5588
  | 6 => 5920
  | 7 => 6272
  | 8 => 6645
  | 9 => 7040
  | 10 => 7459
  | 11 => 7902

/-- `play.rs` `key_to_frequency` (lines 17–42): `note = key % 12`,
`octave = key / 12`, result `octave_8_freqs[note] / 2.0^(8 - octave)`.
All the `f64` operations involved (integer-valued table entries divided by a
power of two) are exact, so the rational model is bit-faithful. -/
def key_to_frequency (key : ℕ) : ℚ :=
  octave_8_freqs ⟨key % 12, by omega⟩ / (2 : ℚ) ^ ((8 : ℤ) - (key / 12 : ℕ))

/-- The frequency argument of the device call in `handle_note_update`
(`play.rs` line 85): `(key_to_frequency(key) * pitch) as u16`. -/
def noteFreqSent (key : ℕ) (pitch : ℚ) : ℕ :=
  rustCastU u16Max (key_to_frequency key * pitch)

/-- `play.rs` lines 10–14. -/
structure InstrumentCount where
  current : ℕ
  max : ℕ
deriving DecidableEq

/-- The instrument-counter update of `handle_note_update` (`play.rs`
lines 90–101).  The `usize` fields wrap modulo `2^64` (release-profile Rust;
§7 of the design notes calls the note-off underflow "silent unsigned-integer
wraparound"). -/
def noteCountStep (vel : ℕ) (c : InstrumentCount) : InstrumentCount :=
  if vel ≠ 0 then
    let cur := (c.current + 1) % usizeCard
    if c.max < cur then ⟨cur, cur⟩ else ⟨cur, c.max⟩
  else
    ⟨(c.current + (usizeCard - 1)) % usizeCard, c.max⟩

/-- A sequence of note-update dispatches applied to an instrument counter. -/
def runNoteCounts (vels : List ℕ) (c : InstrumentCount) : InstrumentCount :=
  vels.foldl (fun s v => noteCountStep v s) c

/-- The scheduler's state during one `sleep_until` call (`play.rs` 44–74):
the absolute wake instant (µs from the common origin), the remaining tick
count for this wait, and the current local tick duration. -/
structure WaitState where
  wake : ℤ
  remaining : ℕ
  tick_us : ℕ
deriving DecidableEq

/-- Natural-number rounding division, rounding half up:
`natRoundDiv a b = ⌊(2a + b) / (2b)⌋`, which equals `round (a / b)`. -/
def natRoundDiv (a b : ℕ) : ℕ :=
  (2 * a + b) / (2 * b)

/-- One tempo-update arrival inside `sleep_until` (`play.rs` lines 56–71):
`elapsed` is the measured wall-clock µs since this wait iteration began
(environment input).  `completed_old_ticks` is the elapsed time divided by the
old tick duration, rounded (`f64::round`) and cast `as u32` (saturating);
`remaining_ticks.saturating_sub` is `ℕ` subtraction; the shift product
`remaining * |new - old|` is a `u32` multiplication and wraps modulo `2^32`
before widening to `u64` for `Duration::from_micros`. -/
def tempoArrival (s : WaitState) (elapsed new_tick : ℕ) : WaitState :=
  let completed := min u32Max (natRoundDiv elapsed s.tick_us)
  let remaining := s.remaining - completed
  if s.tick_us < new_tick then
    ⟨s.wake + ((remaining * (new_tick - s.tick_us)) % 2 ^ 32 : ℕ), remaining, new_tick⟩
  else
    ⟨s.wake - ((remaining * (s.tick_us - new_tick)) % 2 ^ 32 : ℕ), remaining, new_tick⟩

/-- `midi.rs` lines 71–77. -/
inductive EventKind where
  | noteUpdate (key : ℕ) (vel : ℕ)
  | tempoUpdate (us_per_beat : ℕ)
  | trackName (name : String)
  | trackInstrument (name : String)
deriving DecidableEq

/-- `midi.rs` lines 65–69. -/
structure Event where
  delta : ℕ
  kind : Option EventKind
deriving DecidableEq

/-- `args.rs` `Speed`: the global pitch and tempo multipliers (`f64`,
modelled as exact rationals). -/
structure Speed where
  tempo : ℚ
  pitch : ℚ
deriving DecidableEq

/-- `handle_tempo_update` (`play.rs` line 112): `new_us_per_beat as f64 /
ticks_per_beat as f64`. -/
def us_per_tick (new_us_per_beat ticks_per_beat : ℕ) : ℚ :=
  (new_us_per_beat : ℚ) / ticks_per_beat

/-- `handle_tempo_update` (`play.rs` line 113): `us_per_tick / tempo`. -/
def us_per_tick_tempo_adjusted (new_us_per_beat ticks_per_beat : ℕ) (tempo : ℚ) : ℚ :=
  us_per_tick new_us_per_beat ticks_per_beat / tempo

/-- The value sent on the Tempo Bus by `handle_tempo_update` (`play.rs`
line 115): `us_per_tick_tempo_adjusted.round() as u32` (`f64::round`, then a
saturating cast). -/
def tempoSentValue (new_us_per_beat ticks_per_beat : ℕ) (tempo : ℚ) : ℕ :=
  min u32Max (max (rustRound (us_per_tick_tempo_adjusted new_us_per_beat ticks_per_beat tempo)) 0).toNat

/-- Inputs fixed for the lifetime of one `play_track` task (`play.rs`
122–130): the timing scale, the speed multipliers, and the device behaviour.
`device f v` is the outcome of one `tone_update(f, v)` call: `none` for
`Ok(())`, `some e` for a fatal error `e` (the retry loop of `device.rs` has
already absorbed every timed-out failure, see `tone_update_run`). -/
structure PlayConfig where
  ticks_per_beat : ℕ
  speed : Speed
  device : ℕ → ℕ → Option ℕ

/-- The per-task mutable state of `play_track`, together with the observable
history this run produced.  `rxQueue` holds the values pending in this track's
own Tempo-Bus subscription (`tick_update_rx`, subscribed once at `play.rs`
line 136 and never re-acquired), oldest first; values broadcast by other
tracks would enter the same queue and are outside this single-track model.
`sentCmds` records the `tone_update` calls issued (frequency, velocity);
`broadcasts` records the values this track sent on the bus. -/
structure TrackState where
  tick_us : ℕ
  wake : ℤ
  rxQueue : List ℕ
  count : InstrumentCount
  sentCmds : List (ℕ × ℕ)
  broadcasts : List ℕ
deriving DecidableEq

/-- The wait phase of one event (`sleep_until`, `play.rs` 50–73): each pending
tempo value in the subscription queue is received and processed by
`tempoArrival`, paired with the measured elapsed time of its wait iteration
(`elapses`, an environment input); the timer branch wins once the queue is
empty. -/
def drainArrivals : List ℕ → List ℕ → WaitState → WaitState
  | [], _, w => w
  | v :: vs, es, w => drainArrivals vs es.tail (tempoArrival w (es.headD 0) v)

/-- Dispatch of one event's payload after its wait (`play.rs` 151–174).
A note update calls the device first and, if that call returns an error,
propagates it without touching the counter (`play.rs` 84–86); otherwise the
instrument counter is updated.  A tempo update computes the adjusted tick
duration and broadcasts it: `broadcast::Sender::send` delivers the value to
every live receiver, including this track's own `tick_update_rx`, so it is
appended to `rxQueue`; the send cannot fail because that own receiver is
live.  The local `tick_us` is not changed by the dispatch itself.  Track
name/instrument metadata fall to the `_ => ()` arm. -/
def dispatchEvent (cfg : PlayConfig) (k : EventKind) (s : TrackState) :
    Except ℕ TrackState :=
  match k with
  | .noteUpdate key vel =>
    let freq := noteFreqSent key cfg.speed.pitch
    match cfg.device freq vel with
    | some e => .error e
    | none =>
      .ok { s with
        sentCmds := s.sentCmds ++ [(freq, vel)],
        count := noteCountStep vel s.count }
  | .tempoUpdate b =>
    let sent := tempoSentValue b cfg.ticks_per_beat cfg.speed.tempo
    .ok { s with
      broadcasts := s.broadcasts ++ [sent],
      rxQueue := s.rxQueue ++ [sent] }
  | .trackName _ => .ok s
  | .trackInstrument _ => .ok s

/-- One iteration of the event loop (`play.rs` 140–175): advance the wake
time by `delta * tick_us` µs (a `u32` product, wrapping modulo `2^32`, then
widened for `Duration::from_micros`), run `sleep_until` (draining the pending
tempo arrivals), then dispatch the payload if present. -/
def playStep (cfg : PlayConfig) (s : TrackState) (e : Event) (elapses : List ℕ) :
    Except ℕ TrackState :=
  let w := drainArrivals s.rxQueue elapses
    ⟨s.wake + ((e.delta * s.tick_us) % 2 ^ 32 : ℕ), e.delta, s.tick_us⟩
  let s' : TrackState :=
    { s with wake := w.wake, tick_us := w.tick_us, rxQueue := [] }
  match e.kind with
  | none => .ok s'
  | some k => dispatchEvent cfg k s'

/-- `play_track` (`play.rs` 122–177) from the moment the start barrier
releases: the event loop as a fold of `playStep`; `elapsesPerEvent` supplies
each event's wait with its elapsed-time oracle.  Returns the final state, or
the first fatal error, exactly as the `?` operators propagate it. -/
def playTrack (cfg : PlayConfig) (events : List Event)
    (elapsesPerEvent : List (List ℕ)) (init : TrackState) :
    Except ℕ TrackState :=
  match events, elapsesPerEvent with
  | [], _ => .ok init
  | e :: rest, ess =>
    match playStep cfg init e (ess.headD []) with
    | .error err => .error err
    | .ok s => playTrack cfg rest ess.tail s

/-- Note-on events in a velocity sequence: those with velocity `≠ 0`. -/
def noteOns (l : List ℕ) : ℕ := l.length - l.count 0

/-- Spec-side formulation for C6: `base_frequency(key)` as the spec words it —
the fixed 12-tone table value for the reference octave, scaled by a power of
two per octave of distance from that reference. -/
def base_frequency_spec (key : ℕ) : ℚ :=
  octave_8_freqs ⟨key % 12, by omega⟩ * (2 : ℚ) ^ (((key / 12 : ℕ) : ℤ) - 8)

/-- Spec-side formulation for C6: the frequency the claim says is passed to
the device — `round(base_frequency(key) × pitch)` in the u16 frequency unit. -/
def noteFreqRoundedSpec (key : ℕ) (pitch : ℚ) : ℕ :=
  min u16Max (max (rustRound (key_to_frequency key * pitch)) 0).toNat

/-- Kind of a Rust `std::io::Error`, as `tone_update` distinguishes them
(`device.rs` lines 189–192): `TimedOut` against everything else. -/
inductive IOErrorKind where
  | timedOut
  | other (code : ℕ)
deriving DecidableEq

/-- Outcome of one `write_all` attempt on the serial link. -/
inductive WriteOutcome where
  | ok
  | fail (k : IOErrorKind)
deriving DecidableEq

/-- `SerialDevice::tone_update`'s retry loop (`device.rs` lines 185–195) as a
function of the sequence of successive write-attempt outcomes supplied by the
environment: a timed-out failure is logged and retried with the same message,
a success returns `Ok(())`, and any other error kind is returned to the
caller.  `none` models the still-retrying case: every attempt in the (finite)
outcome trace timed out, and the loop has not returned. -/
def tone_update_run : List WriteOutcome → Option (Except IOErrorKind Unit)
  | [] => none
  | .ok :: _ => some (.ok ())
  | .fail .timedOut :: rest => tone_update_run rest
  | .fail (.other c) :: _ => some (.error (.other c))

/-- `main.rs` lines 197–202: after `join_all` has completed every spawned
`play_track` task, the orchestrator scans the outcomes in task (spawn) order
and returns the first error found, or `Ok(())` when none errored.  Task
panics (`JoinError`) are outside the model. -/
def surface_first_error {e : Type} : List (Except e Unit) → Except e Unit
  | [] => .ok ()
  | .ok _ :: rest => surface_first_error rest
  | .error err :: _ => .error err

/-- The error carried by one task outcome, if any. -/
def firstErr {e : Type} (r : Except e Unit) : Option e :=
  match r with
  | .error err => some err
  | .ok _ => none

theorem natRoundDiv_eq_round (a b : ℕ) (hb : 0 < b) :
    (natRoundDiv a b : ℤ) = round ((a : ℚ) / b) := by
  have hb0 : (b : ℚ) ≠ 0 := by exact_mod_cast hb.ne'
  have h1 : ((a : ℚ) / b + 1 / 2) = ((2 * a + b : ℕ) : ℚ) / ((2 * b : ℕ) : ℚ) := by
    push_cast
    field_simp
    ring
  rw [round_eq, h1]
  rw [show (((2 * a + b : ℕ) : ℚ)) = (((2 * a + b : ℕ) : ℤ) : ℚ) by push_cast; ring]
  rw [Rat.floor_intCast_div_natCast]
  rw [natRoundDiv]
  exact Int.natCast_div (2 * a + b) (2 * b)

/-- C1: on a tempo-update arrival inside the scheduler's wait loop, the
implementation computes `completed = round(elapsed / tick_us_old)`, clamps
`remaining = delta_ticks - completed` at `0` (saturating subtraction), shifts
the wake time by exactly `remaining * (tick_us_new - tick_us_old)` µs (forward
when the new tick is longer, backward when shorter, given the `u32` shift
product fits), and adopts `tick_us_new`; in particular, for `delta = 480`,
`tick_us_old = 500`, `tick_us_new = 250` arriving at `elapsed = 100000` µs
toward a wake time of `240000` µs, the new wake time is `170000` µs. -/
theorem sleep_until_tempo_arrival (s : WaitState) (elapsed new_tick : ℕ)
    (htick : 0 < s.tick_us)
    (hcomp : natRoundDiv elapsed s.tick_us ≤ u32Max)
    (hprod : (s.remaining - natRoundDiv elapsed s.tick_us) *
      (max new_tick s.tick_us - min new_tick s.tick_us) < 2 ^ 32) :
    ((natRoundDiv elapsed s.tick_us : ℤ) = round ((elapsed : ℚ) / s.tick_us)) ∧
    tempoArrival s elapsed new_tick =
      ⟨s.wake + ((s.remaining - natRoundDiv elapsed s.tick_us : ℕ) : ℤ) *
          ((new_tick : ℤ) - (s.tick_us : ℤ)),
        s.remaining - natRoundDiv elapsed s.tick_us, new_tick⟩ ∧
    tempoArrival ⟨240000, 480, 500⟩ 100000 250 = ⟨170000, 280, 250⟩ := by
  refine ⟨natRoundDiv_eq_round elapsed s.tick_us htick, ?_, by decide⟩
  rw [tempoArrival]
  rw [min_eq_right hcomp]
  by_cases h : s.tick_us < new_tick
  · rw [if_pos h]
    have hmm : max new_tick s.tick_us = new_tick := max_eq_left h.le
    have hmn : min new_tick s.tick_us = s.tick_us := min_eq_right h.le
    rw [hmm, hmn] at hprod
    rw [Nat.mod_eq_of_lt hprod]
    simp only [WaitState.mk.injEq, and_true]
    push_cast [Nat.cast_sub h.le]
    ring
  · rw [if_neg h]
    push_neg at h
    have hmm : max new_tick s.tick_us = s.tick_us := max_eq_right h
    have hmn : min new_tick s.tick_us = new_tick := min_eq_left h
    rw [hmm, hmn] at hprod
    rw [Nat.mod_eq_of_lt hprod]
    simp only [WaitState.mk.injEq, and_true]
    push_cast [Nat.cast_sub h]
    ring

theorem sleep_until_tempo_arrival_witness :
    (0 < (500 : ℕ) ∧ natRoundDiv 100000 500 ≤ u32Max ∧
      (480 - natRoundDiv 100000 500) * (max 250 500 - min 250 500) < 2 ^ 32) ∧
    (((natRoundDiv 100000 500 : ℕ) : ℤ) = round ((100000 : ℚ) / 500) ∧
      tempoArrival ⟨240000, 480, 500⟩ 100000 250 =
        ⟨(240000 : ℤ) + ((480 - natRoundDiv 100000 500 : ℕ) : ℤ) *
            ((250 : ℤ) - (500 : ℤ)),
          480 - natRoundDiv 100000 500, 250⟩ ∧
      tempoArrival ⟨240000, 480, 500⟩ 100000 250 = ⟨170000, 280, 250⟩) :=
  ⟨⟨by decide, by decide, by decide⟩,
    sleep_until_tempo_arrival ⟨240000, 480, 500⟩ 100000 250
      (by decide) (by decide) (by decide)⟩

@[simp]
theorem drainArrivals_nil (es : List ℕ) (w : WaitState) :
    drainArrivals [] es w = w := rfl

@[simp]
theorem drainArrivals_cons (v : ℕ) (vs es : List ℕ) (w : WaitState) :
    drainArrivals (v :: vs) es w = drainArrivals vs es.tail (tempoArrival w (es.headD 0) v) := rfl

theorem tempoArrival_tick_us (w : WaitState) (elapsed new_tick : ℕ) :
    (tempoArrival w elapsed new_tick).tick_us = new_tick := by
  rw [tempoArrival]
  split <;> rfl

/-- Draining a nonempty arrival queue leaves the local tick duration equal to
the last value received; an empty queue leaves it unchanged. -/
theorem drainArrivals_tick_us (vs : List ℕ) (es : List ℕ) (w : WaitState) :
    (drainArrivals vs es w).tick_us = vs.getLastD w.tick_us := by
  induction vs generalizing es w with
  | nil => rfl
  | cons v vs ih =>
    rw [drainArrivals_cons, ih, tempoArrival_tick_us]
    cases vs <;> simp [List.getLastD]

/-- C2 (corrected): `play.rs` subscribes the track to the Tempo Bus once
(line 136) and `handle_tempo_update` never drops or re-acquires that
subscription; the value the track broadcasts is therefore delivered to its own
subscription and is adopted by its own next wait loop — indeed, since the
dispatch leaves the local `tick_us` unchanged, this self-reception is the only
way the sending track itself adopts the tick duration it announced. -/
theorem tempo_self_reception (cfg : PlayConfig) (b : ℕ) (s s' : TrackState)
    (hq : s.rxQueue = [])
    (h : dispatchEvent cfg (.tempoUpdate b) s = .ok s') :
    s'.tick_us = s.tick_us ∧
    s'.rxQueue = [tempoSentValue b cfg.ticks_per_beat cfg.speed.tempo] ∧
    ∀ es w, (drainArrivals s'.rxQueue es w).tick_us =
      tempoSentValue b cfg.ticks_per_beat cfg.speed.tempo := by
  simp only [dispatchEvent] at h
  cases h
  refine ⟨rfl, by simp [hq], ?_⟩
  intro es w
  simp only [hq, List.nil_append]
  rw [drainArrivals_tick_us]
  simp [List.getLastD]

theorem tempo_self_reception_witness :
    ((([] : List ℕ) = []) ∧
      dispatchEvent ⟨500, ⟨1, 1⟩, fun _ _ => none⟩ (.tempoUpdate 125000)
        ⟨500, 0, [], ⟨0, 0⟩, [], []⟩ =
        .ok ⟨500, 0, [250], ⟨0, 0⟩, [], [250]⟩) ∧
    ((500 : ℕ) = 500 ∧
      ([250] : List ℕ) = [tempoSentValue 125000 500 1] ∧
      ∀ es w, (drainArrivals (([250] : List ℕ)) es w).tick_us =
        tempoSentValue 125000 500 1) := by
  have hsent : tempoSentValue 125000 500 1 = 250 := by
    have h250 : Int.toNat 250 = 250 := by decide
    norm_num [tempoSentValue, us_per_tick_tempo_adjusted, us_per_tick, rustRound,
      u32Max, round_eq, h250]
  have hd : dispatchEvent ⟨500, ⟨1, 1⟩, fun _ _ => none⟩ (.tempoUpdate 125000)
      ⟨500, 0, [], ⟨0, 0⟩, [], []⟩ =
      .ok ⟨500, 0, [250], ⟨0, 0⟩, [], [250]⟩ := by
    simp only [dispatchEvent, hsent, List.nil_append]
  have h := tempo_self_reception ⟨500, ⟨1, 1⟩, fun _ _ => none⟩ 125000
    ⟨500, 0, [], ⟨0, 0⟩, [], []⟩ ⟨500, 0, [250], ⟨0, 0⟩, [], [250]⟩ rfl hd
  exact ⟨⟨rfl, hd⟩, h⟩

/-- C2, the claim as stated is false on the code: a track that dispatches a
tempo update does receive its own broadcast in its next wait loop.  Concrete
run: tick 500, one `TempoUpdate(125000)` event then one empty event; the track
broadcasts 250 (its only broadcast), and its own next wait receives it and
adopts `tick_us = 250 ≠ 500`. -/
theorem tempo_self_reception_cex :
    playTrack ⟨500, ⟨1, 1⟩, fun _ _ => none⟩
        [⟨0, some (.tempoUpdate 125000)⟩, ⟨480, none⟩] [[], [0]]
        ⟨500, 0, [], ⟨0, 0⟩, [], []⟩ =
      .ok ⟨250, 120000, [], ⟨0, 0⟩, [], [250]⟩ ∧
    (250 : ℕ) ≠ 500 := by
  have hsent : tempoSentValue 125000 500 1 = 250 := by
    have h250 : Int.toNat 250 = 250 := by decide
    norm_num [tempoSentValue, us_per_tick_tempo_adjusted, us_per_tick, rustRound,
      u32Max, round_eq, h250]
  refine ⟨?_, by decide⟩
  simp only [playTrack, playStep, dispatchEvent, drainArrivals_nil, drainArrivals_cons, hsent]
  norm_num [tempoArrival, natRoundDiv, u32Max]

theorem playStep_no_tempo (cfg : PlayConfig) (s : TrackState) (e : Event)
    (es : List ℕ)
    (hq : s.rxQueue = [])
    (hk : ∀ b, e.kind ≠ some (EventKind.tempoUpdate b))
    (hdev : ∀ f v, cfg.device f v = none) :
    ∃ s', playStep cfg s e es = .ok s' ∧
      s'.tick_us = s.tick_us ∧ s'.rxQueue = [] ∧
      s'.wake = s.wake + ((e.delta * s.tick_us) % 2 ^ 32 : ℕ) := by
  cases hek : e.kind with
  | none =>
    refine Exists.intro
      { s with wake := s.wake + ((e.delta * s.tick_us) % 2 ^ 32 : ℕ), rxQueue := [] }
      ⟨?_, rfl, rfl, rfl⟩
    simp only [playStep, hq, drainArrivals_nil, hek]
  | some k =>
    cases k with
    | noteUpdate key vel =>
      refine Exists.intro
        { s with
          wake := s.wake + ((e.delta * s.tick_us) % 2 ^ 32 : ℕ),
          rxQueue := [],
          sentCmds := s.sentCmds ++ [(noteFreqSent key cfg.speed.pitch, vel)],
          count := noteCountStep vel s.count }
        ⟨?_, rfl, rfl, rfl⟩
      simp only [playStep, hq, drainArrivals_nil, hek, dispatchEvent, hdev]
    | tempoUpdate b => exact absurd hek (hk b)
    | trackName n =>
      refine Exists.intro
        { s with wake := s.wake + ((e.delta * s.tick_us) % 2 ^ 32 : ℕ), rxQueue := [] }
        ⟨?_, rfl, rfl, rfl⟩
      simp only [playStep, hq, drainArrivals_nil, hek, dispatchEvent]
    | trackInstrument n =>
      refine Exists.intro
        { s with wake := s.wake + ((e.delta * s.tick_us) % 2 ^ 32 : ℕ), rxQueue := [] }
        ⟨?_, rfl, rfl, rfl⟩
      simp only [playStep, hq, drainArrivals_nil, hek, dispatchEvent]

/-- C3: for a track that never receives a tempo update (no tempo events, an
empty subscription queue) the wake time computed for the k-th event is exactly
`origin + tick_us * (d1 + ... + dk)`: the per-event `u32` products `delta *
tick_us` add with no rounding at all (hypotheses: each product fits in `u32`,
and the device reports no fatal error, so the k-th event is reached). -/
theorem constant_tick_wake_times (cfg : PlayConfig) (events : List Event)
    (ess : List (List ℕ)) (init : TrackState)
    (hq : init.rxQueue = [])
    (hnt : ∀ e ∈ events, ∀ b, e.kind ≠ some (EventKind.tempoUpdate b))
    (hdev : ∀ f v, cfg.device f v = none)
    (hfit : ∀ e ∈ events, e.delta * init.tick_us < 2 ^ 32)
    (k : ℕ) :
    ∃ s, playTrack cfg (events.take k) ess init = .ok s ∧
      s.wake = init.wake + (init.tick_us : ℤ) * (((events.take k).map Event.delta).sum : ℕ) := by
  induction events generalizing init ess k with
  | nil =>
    refine ⟨init, by rw [List.take_nil]; rfl, by simp⟩
  | cons e rest ih =>
    cases k with
    | zero => exact ⟨init, rfl, by simp⟩
    | succ k =>
      obtain ⟨s1, hs1, ht1, hq1, hw1⟩ :=
        playStep_no_tempo cfg init e (ess.headD [])
          hq (hnt e (List.mem_cons_self e rest)) hdev
      have hfite : e.delta * init.tick_us < 2 ^ 32 :=
        hfit e (List.mem_cons_self e rest)
      obtain ⟨s, hs, hw⟩ := ih ess.tail s1 hq1
        (fun e' he' b => hnt e' (List.mem_cons_of_mem e he') b)
        (fun e' he' => by rw [ht1]; exact hfit e' (List.mem_cons_of_mem e he'))
        k
      refine ⟨s, ?_, ?_⟩
      · rw [List.take_succ_cons, playTrack, hs1]
        exact hs
      · rw [List.take_succ_cons, List.map_cons, List.sum_cons]
        rw [hw, ht1, hw1, Nat.mod_eq_of_lt hfite]
        push_cast
        ring

theorem constant_tick_wake_times_witness :
    ((([] : List ℕ) = []) ∧
      (∀ e ∈ [(⟨10, none⟩ : Event), ⟨20, none⟩], ∀ b, e.kind ≠ some (EventKind.tempoUpdate b)) ∧
      (∀ f v, (fun (_ _ : ℕ) => (none : Option ℕ)) f v = none) ∧
      (∀ e ∈ [(⟨10, none⟩ : Event), ⟨20, none⟩], e.delta * 500 < 2 ^ 32)) ∧
    (∃ s, playTrack ⟨480, ⟨1, 1⟩, fun _ _ => none⟩
        ([(⟨10, none⟩ : Event), ⟨20, none⟩].take 2) [] ⟨500, 0, [], ⟨0, 0⟩, [], []⟩ = .ok s ∧
      s.wake = 0 + (500 : ℤ) *
        ((([(⟨10, none⟩ : Event), ⟨20, none⟩].take 2).map Event.delta).sum : ℕ)) := by
  have hnt : ∀ e ∈ [(⟨10, none⟩ : Event), ⟨20, none⟩],
      ∀ b, e.kind ≠ some (EventKind.tempoUpdate b) := by
    intro e he b
    fin_cases he <;> simp
  have hfit : ∀ e ∈ [(⟨10, none⟩ : Event), ⟨20, none⟩], e.delta * 500 < 2 ^ 32 := by
    intro e he
    fin_cases he <;> norm_num
  refine ⟨⟨rfl, hnt, fun _ _ => rfl, hfit⟩, ?_⟩
  exact constant_tick_wake_times ⟨480, ⟨1, 1⟩, fun _ _ => none⟩
    [⟨10, none⟩, ⟨20, none⟩] [] ⟨500, 0, [], ⟨0, 0⟩, [], []⟩
    rfl hnt (fun _ _ => rfl) hfit 2

/-- C10: an empty event sequence makes `play_track` return `Ok(())` right
after the start barrier, with no device command issued and the shared
instrument counter untouched; and an event whose payload is `None` or a
metadata kind (track name / instrument) issues no device command and leaves
the counter unchanged, only advancing the wake time by the event's delta
(`delta * tick_us` µs, given the `u32` product fits). -/
theorem trivial_events_no_effects (cfg : PlayConfig) (ess : List (List ℕ))
    (init : TrackState) (e : Event) (es : List ℕ)
    (hq : init.rxQueue = [])
    (hk : e.kind = none ∨ (∃ n, e.kind = some (EventKind.trackName n)) ∨
      (∃ n, e.kind = some (EventKind.trackInstrument n)))
    (hfit : e.delta * init.tick_us < 2 ^ 32) :
    playTrack cfg [] ess init = .ok init ∧
    playStep cfg init e es =
      .ok { init with wake := init.wake + (e.delta * init.tick_us : ℕ) } := by
  refine ⟨rfl, ?_⟩
  rcases hk with hk | ⟨n, hk⟩ | ⟨n, hk⟩ <;>
    simp only [playStep, hq, drainArrivals_nil, Nat.mod_eq_of_lt hfit, hk, dispatchEvent]

theorem trivial_events_no_effects_witness :
    ((([] : List ℕ) = []) ∧
      ((⟨30, none⟩ : Event).kind = none ∨
        (∃ n, (⟨30, none⟩ : Event).kind = some (EventKind.trackName n)) ∨
        (∃ n, (⟨30, none⟩ : Event).kind = some (EventKind.trackInstrument n))) ∧
      (⟨30, none⟩ : Event).delta * 500 < 2 ^ 32) ∧
    (playTrack ⟨480, ⟨1, 1⟩, fun _ _ => none⟩ [] [[]] ⟨500, 0, [], ⟨0, 0⟩, [], []⟩ =
        .ok ⟨500, 0, [], ⟨0, 0⟩, [], []⟩ ∧
      playStep ⟨480, ⟨1, 1⟩, fun _ _ => none⟩ ⟨500, 0, [], ⟨0, 0⟩, [], []⟩ ⟨30, none⟩ [] =
        .ok { (⟨500, 0, [], ⟨0, 0⟩, [], []⟩ : TrackState) with
          wake := (0 : ℤ) + (((⟨30, none⟩ : Event).delta * 500 : ℕ)) }) := by
  refine ⟨⟨rfl, Or.inl rfl, by norm_num⟩, ?_⟩
  exact trivial_events_no_effects ⟨480, ⟨1, 1⟩, fun _ _ => none⟩ [[]]
    ⟨500, 0, [], ⟨0, 0⟩, [], []⟩ ⟨30, none⟩ [] rfl (Or.inl rfl) (by norm_num)

theorem noteOns_cons_zero (l : List ℕ) : noteOns (0 :: l) = noteOns l := by
  have h := List.count_le_length 0 l
  simp [noteOns, List.count_cons]

theorem noteOns_cons_pos (v : ℕ) (l : List ℕ) (hv : v ≠ 0) :
    noteOns (v :: l) = noteOns l + 1 := by
  have h := List.count_le_length 0 l
  have hc : (v :: l).count 0 = l.count 0 := by
    simp [List.count_cons, hv, Ne.symm hv]
  simp only [noteOns, hc, List.length_cons]
  omega

theorem noteCountStep_zero (c : InstrumentCount) (h1 : 1 ≤ c.current)
    (h2 : c.current < usizeCard) :
    noteCountStep 0 c = ⟨c.current - 1, c.max⟩ := by
  have hpos : 0 < usizeCard := by norm_num [usizeCard]
  have hlt : c.current - 1 < usizeCard := by omega
  have he : c.current + (usizeCard - 1) = (c.current - 1) + 1 * usizeCard := by omega
  rw [noteCountStep, if_neg (fun h => h rfl)]
  rw [he, Nat.add_mul_mod_self_right, Nat.mod_eq_of_lt hlt]

theorem noteCountStep_pos (v : ℕ) (c : InstrumentCount) (hv : v ≠ 0)
    (h : c.current + 1 < usizeCard) :
    noteCountStep v c = ⟨c.current + 1, max c.max (c.current + 1)⟩ := by
  simp only [noteCountStep, if_pos hv]
  rw [Nat.mod_eq_of_lt h]
  by_cases hm : c.max < c.current + 1
  · rw [if_pos hm]
    simp [max_eq_right hm.le]
  · rw [if_neg hm]
    push_neg at hm
    simp [max_eq_left hm]

theorem noteCountStep_max_le (v : ℕ) (c : InstrumentCount) :
    c.max ≤ (noteCountStep v c).max := by
  simp only [noteCountStep]
  by_cases hv : v ≠ 0
  · rw [if_pos hv]
    by_cases hm : c.max < (c.current + 1) % usizeCard
    · rw [if_pos hm]
      exact hm.le
    · rw [if_neg hm]
  · rw [if_neg hv]

theorem runNoteCounts_max_le (l : List ℕ) (c : InstrumentCount) :
    c.max ≤ (runNoteCounts l c).max := by
  induction l generalizing c with
  | nil => exact le_refl _
  | cons v vs ih =>
    exact le_trans (noteCountStep_max_le v c) (ih (noteCountStep v c))

theorem runNoteCounts_append (a b : List ℕ) (c : InstrumentCount) :
    runNoteCounts (a ++ b) c = runNoteCounts b (runNoteCounts a c) := by
  simp [runNoteCounts, List.foldl_append]

/-- Invariant preservation for a balanced dispatch sequence starting from an
arbitrary counter state: the counter tracks note-ons minus note-offs exactly
(no wraparound is ever triggered), `max` dominates `current`, stays within
`usize`, and never decreases. -/
theorem runNoteCounts_general (vels : List ℕ) (c : InstrumentCount)
    (h1 : c.current ≤ c.max) (h2 : c.max < usizeCard)
    (h3 : c.current + noteOns vels < usizeCard)
    (h4 : ∀ k, (vels.take k).count 0 ≤ c.current + noteOns (vels.take k)) :
    (runNoteCounts vels c).current + vels.count 0 = c.current + noteOns vels ∧
    (runNoteCounts vels c).current ≤ (runNoteCounts vels c).max ∧
    (runNoteCounts vels c).max < usizeCard ∧
    c.max ≤ (runNoteCounts vels c).max := by
  induction vels generalizing c with
  | nil =>
    refine ⟨?_, h1, h2, le_refl _⟩
    simp [runNoteCounts, noteOns]
  | cons v vs ih =>
    have hstep : runNoteCounts (v :: vs) c = runNoteCounts vs (noteCountStep v c) := rfl
    by_cases hv : v = 0
    · subst hv
      have hc1 : 1 ≤ c.current := by
        have h5 := h4 1
        rw [List.take_succ_cons, List.take_zero] at h5
        have h6 : ([0] : List ℕ).count 0 = 1 := by decide
        have h7 : noteOns [0] = 0 := by decide
        rw [h6, h7] at h5
        omega
      have hc2 : c.current < usizeCard := lt_of_le_of_lt h1 h2
      have hz := noteCountStep_zero c hc1 hc2
      have hons := noteOns_cons_zero vs
      have a1 : c.current - 1 ≤ c.max := le_trans (Nat.sub_le _ _) h1
      have a3 : (c.current - 1) + noteOns vs < usizeCard := by
        rw [hons] at h3
        omega
      have a4 : ∀ k, (vs.take k).count 0 ≤ (c.current - 1) + noteOns (vs.take k) := by
        intro k
        have h5 := h4 (k + 1)
        rw [List.take_succ_cons, noteOns_cons_zero, List.count_cons_self] at h5
        omega
      obtain ⟨ih1, ih2, ih3, ih4⟩ := ih ⟨c.current - 1, c.max⟩ a1 h2 a3 a4
      have ih1' : (runNoteCounts vs ⟨c.current - 1, c.max⟩).current + vs.count 0 =
          (c.current - 1) + noteOns vs := ih1
      have ih4' : c.max ≤ (runNoteCounts vs ⟨c.current - 1, c.max⟩).max := ih4
      rw [hstep, hz]
      refine ⟨?_, ih2, ih3, ih4'⟩
      rw [hons, List.count_cons_self]
      omega
    · have hons := noteOns_cons_pos v vs hv
      have hc2 : c.current + 1 < usizeCard := by
        rw [hons] at h3
        omega
      have hp := noteCountStep_pos v c hv hc2
      have a1 : c.current + 1 ≤ max c.max (c.current + 1) := le_max_right _ _
      have a2 : max c.max (c.current + 1) < usizeCard := Nat.max_lt.mpr ⟨h2, hc2⟩
      have a3 : (c.current + 1) + noteOns vs < usizeCard := by
        rw [hons] at h3
        omega
      have a4 : ∀ k, (vs.take k).count 0 ≤ (c.current + 1) + noteOns (vs.take k) := by
        intro k
        have h5 := h4 (k + 1)
        rw [List.take_succ_cons, noteOns_cons_pos v _ hv,
          List.count_cons_of_ne (Ne.symm hv)] at h5
        omega
      obtain ⟨ih1, ih2, ih3, ih4⟩ := ih ⟨c.current + 1, max c.max (c.current + 1)⟩ a1 a2 a3 a4
      have ih1' : (runNoteCounts vs ⟨c.current + 1, max c.max (c.current + 1)⟩).current
          + vs.count 0 = (c.current + 1) + noteOns vs := ih1
      have ih4' : max c.max (c.current + 1) ≤
          (runNoteCounts vs ⟨c.current + 1, max c.max (c.current + 1)⟩).max := ih4
      rw [hstep, hp]
      refine ⟨?_, ih2, ih3, le_trans (le_max_left _ _) ih4'⟩
      rw [hons, List.count_cons_of_ne (Ne.symm hv)]
      omega

/-- C4 (corrected): starting from `current = 0, max = 0`, for any dispatch
sequence in which no note-off arrives while `current = 0` — every prefix has
at least as many note-ons (velocity `≠ 0`) as note-offs (velocity `0`) — and
whose length stays below `2^64`, the invariant `max ≥ current` holds after
every prefix, and `max` is non-decreasing across prefixes.  (The unguarded
`current -= 1` makes the unrestricted claim false: see the counterexample.) -/
theorem instrument_count_invariant (vels : List ℕ)
    (hlen : vels.length < usizeCard)
    (hbal : ∀ k, (vels.take k).count 0 ≤ noteOns (vels.take k)) :
    (∀ k, (runNoteCounts (vels.take k) ⟨0, 0⟩).current ≤
      (runNoteCounts (vels.take k) ⟨0, 0⟩).max) ∧
    (∀ j k, j ≤ k → (runNoteCounts (vels.take j) ⟨0, 0⟩).max ≤
      (runNoteCounts (vels.take k) ⟨0, 0⟩).max) := by
  constructor
  · intro k
    have h3 : (0 : ℕ) + noteOns (vels.take k) < usizeCard := by
      have hle : noteOns (vels.take k) ≤ (vels.take k).length := Nat.sub_le _ _
      have hlk : (vels.take k).length ≤ vels.length := by
        rw [List.length_take]
        exact min_le_right _ _
      omega
    have h4 : ∀ j, ((vels.take k).take j).count 0 ≤
        (0 : ℕ) + noteOns ((vels.take k).take j) := by
      intro j
      rw [List.take_take, Nat.zero_add]
      exact hbal _
    obtain ⟨-, h, -, -⟩ := runNoteCounts_general (vels.take k) ⟨0, 0⟩
      (le_refl 0) (show (0 : ℕ) < usizeCard by norm_num [usizeCard]) h3 h4
    exact h
  · intro j k hjk
    have hsplit : vels.take k = vels.take j ++ (vels.drop j).take (k - j) := by
      rw [← List.take_add]
      congr 1
      omega
    rw [hsplit, runNoteCounts_append]
    exact runNoteCounts_max_le _ _

theorem instrument_count_invariant_witness :
    (([5, 0, 7, 0] : List ℕ).length < usizeCard ∧
      (∀ k, (([5, 0, 7, 0] : List ℕ).take k).count 0 ≤
        noteOns (([5, 0, 7, 0] : List ℕ).take k))) ∧
    ((∀ k, (runNoteCounts (([5, 0, 7, 0] : List ℕ).take k) ⟨0, 0⟩).current ≤
        (runNoteCounts (([5, 0, 7, 0] : List ℕ).take k) ⟨0, 0⟩).max) ∧
      (∀ j k, j ≤ k →
        (runNoteCounts (([5, 0, 7, 0] : List ℕ).take j) ⟨0, 0⟩).max ≤
          (runNoteCounts (([5, 0, 7, 0] : List ℕ).take k) ⟨0, 0⟩).max)) := by
  have hlen : ([5, 0, 7, 0] : List ℕ).length < usizeCard := by norm_num [usizeCard]
  have hbal : ∀ k, (([5, 0, 7, 0] : List ℕ).take k).count 0 ≤
      noteOns (([5, 0, 7, 0] : List ℕ).take k) := by
    intro k
    rcases k with _ | _ | _ | _ | k
    · decide
    · decide
    · decide
    · decide
    · simp only [List.take_succ_cons, List.take_zero, List.take_nil]
      decide
  exact ⟨⟨hlen, hbal⟩, instrument_count_invariant [5, 0, 7, 0] hlen hbal⟩

/-- C4: the claim as stated — the invariant for an arbitrary dispatch
sequence from `current = 0, max = 0` — is false on the code: a single
unmatched note-off (velocity `0`) wraps the unsigned counter to `2^64 - 1`
while `max` stays `0`, violating `max ≥ current` at that observation point. -/
theorem instrument_count_invariant_cex :
    ¬ ((runNoteCounts [0] ⟨0, 0⟩).current ≤ (runNoteCounts [0] ⟨0, 0⟩).max) := by
  decide

/-- C8: the velocity-0 branch of `handle_note_update` decrements the shared
counter with no underflow guard: dispatching a note-off with `current = 0`
returns no error and wraps `current` to `2^64 - 1` rather than clamping it at
zero, so the underflow branch is reachable. -/
theorem note_off_underflow_unguarded :
    noteCountStep 0 ⟨0, 0⟩ = ⟨usizeCard - 1, 0⟩ ∧
    usizeCard - 1 ≠ 0 ∧
    dispatchEvent ⟨480, ⟨1, 1⟩, fun _ _ => none⟩ (.noteUpdate 60 0)
        ⟨500, 0, [], ⟨0, 0⟩, [], []⟩ =
      .ok ⟨500, 0, [], ⟨usizeCard - 1, 0⟩, [(noteFreqSent 60 1, 0)], []⟩ := by
  refine ⟨by decide, by decide, ?_⟩
  simp only [dispatchEvent, List.nil_append]
  rw [show noteCountStep 0 ⟨0, 0⟩ = ⟨usizeCard - 1, 0⟩ from by decide]

/-- C5: the value broadcast on the Tempo Bus by a `TempoUpdate(new_us_per_beat)`
dispatch is `us_per_tick = new_us_per_beat / ticks_per_beat` divided by the
tempo multiplier, converted to an integer (`f64::round`, then the saturating
`as u32` cast — for the nonnegative values produced here, the rounded quotient
clamped at `u32`'s maximum); and a tempo multiplier of `2` halves every
computed `us_per_tick`. -/
theorem tempo_broadcast_value (b t : ℕ) (tempo : ℚ) (ht : 0 < t) (htempo : 0 < tempo) :
    (tempoSentValue b t tempo : ℤ) = min (u32Max : ℤ) (round ((b : ℚ) / t / tempo)) ∧
    us_per_tick_tempo_adjusted b t 2 = us_per_tick b t / 2 := by
  refine ⟨?_, rfl⟩
  have hq : us_per_tick_tempo_adjusted b t tempo = (b : ℚ) / t / tempo := rfl
  have hx : (0 : ℚ) ≤ (b : ℚ) / t / tempo :=
    div_nonneg (div_nonneg (Nat.cast_nonneg b) (Nat.cast_nonneg t)) htempo.le
  have hr : (0 : ℤ) ≤ round ((b : ℚ) / t / tempo) := by
    rw [round_eq]
    exact Int.floor_nonneg.mpr (by linarith)
  rw [tempoSentValue, rustRound, hq, if_pos hx, max_eq_left hr]
  push_cast [Int.toNat_of_nonneg hr]
  rfl

theorem tempo_broadcast_value_witness :
    ((0 < (1000 : ℕ)) ∧ ((0 : ℚ) < 2)) ∧
    ((tempoSentValue 500000 1000 2 : ℤ) =
        min (u32Max : ℤ) (round ((500000 : ℚ) / 1000 / 2)) ∧
      us_per_tick_tempo_adjusted 500000 1000 2 = us_per_tick 500000 1000 / 2) :=
  ⟨⟨by norm_num, by norm_num⟩,
    tempo_broadcast_value 500000 1000 2 (by norm_num) (by norm_num)⟩

/-- C6 (corrected): the frequency passed to the device is the saturating
`as u16` cast — truncation toward zero, not rounding — of
`base_frequency(key) × pitch`, where `key_to_frequency` agrees exactly with
the spec's equal-tempered description (table entry for `key % 12`, scaled by
`2^(key/12 − 8)`). -/
theorem note_frequency_truncated (key : ℕ) (pitch : ℚ) :
    key_to_frequency key = base_frequency_spec key ∧
    noteFreqSent key pitch = min u16Max (max ⌊key_to_frequency key * pitch⌋ 0).toNat := by
  refine ⟨?_, rfl⟩
  rw [key_to_frequency, base_frequency_spec, div_eq_mul_inv, ← zpow_neg]
  rw [show -((8 : ℤ) - (key / 12 : ℕ)) = (((key / 12 : ℕ) : ℤ) - 8) by ring]

/-- C6: the claim as stated — `round(base_frequency(k) × p)` sent — is false
on the code, which truncates: at `key = 4`, `pitch = 1` the exact product is
`5274/256 = 20.6015625`; the code sends `20`, rounding would send `21`. -/
theorem note_frequency_rounding_cex :
    noteFreqSent 4 1 = 20 ∧ noteFreqRoundedSpec 4 1 = 21 ∧
    noteFreqSent 4 1 ≠ noteFreqRoundedSpec 4 1 := by
  have htab : octave_8_freqs ⟨4 % 12, by omega⟩ = 5274 := rfl
  have hk : key_to_frequency 4 = 5274 / 256 := by
    rw [key_to_frequency, htab]
    norm_num
  have h20 : (20 : ℤ).toNat = 20 := rfl
  have h21 : (21 : ℤ).toNat = 21 := rfl
  have ha : noteFreqSent 4 1 = 20 := by
    norm_num [noteFreqSent, rustCastU, u16Max, hk, h20]
  have hb : noteFreqRoundedSpec 4 1 = 21 := by
    norm_num [noteFreqRoundedSpec, rustRound, u16Max, hk, round_eq, h21]
  exact ⟨ha, hb, by rw [ha, hb]; decide⟩

/-- C7: the `tone_update` retry loop absorbs every timed-out write failure
(a burst of timeouts of any length is retried through), returns `Ok(())` as
soon as a write succeeds, returns any non-timed-out I/O error as-is, and a
returned outcome is never a timed-out error. -/
theorem tone_update_retry_contract :
    (∀ (n : ℕ) (rest : List WriteOutcome),
      tone_update_run (List.replicate n (.fail .timedOut) ++ rest) =
        tone_update_run rest) ∧
    (∀ rest, tone_update_run (.ok :: rest) = some (.ok ())) ∧
    (∀ c rest, tone_update_run (.fail (.other c) :: rest) =
      some (.error (.other c))) ∧
    (∀ outs r, tone_update_run outs = some r →
      r = .ok () ∨ ∃ c, r = .error (.other c)) := by
  refine ⟨?_, fun _ => rfl, fun _ _ => rfl, ?_⟩
  · intro n rest
    induction n with
    | zero => rfl
    | succ n ih =>
      rw [List.replicate_succ, List.cons_append]
      rw [show tone_update_run (.fail .timedOut ::
        (List.replicate n (.fail .timedOut) ++ rest)) =
        tone_update_run (List.replicate n (.fail .timedOut) ++ rest) from rfl]
      exact ih
  · intro outs r h
    induction outs with
    | nil => cases h
    | cons o rest ih =>
      cases o with
      | ok =>
        have h2 := Option.some.inj h
        exact Or.inl h2.symm
      | fail k =>
        cases k with
        | timedOut => exact ih h
        | other c =>
          have h2 := Option.some.inj h
          exact Or.inr ⟨c, h2.symm⟩

theorem tone_update_retry_contract_witness :
    tone_update_run [.fail .timedOut, .ok] = some (.ok ()) ∧
    ((Except.ok () : Except IOErrorKind Unit) = .ok () ∨
      ∃ c, (Except.ok () : Except IOErrorKind Unit) = .error (.other c)) :=
  ⟨rfl, tone_update_retry_contract.2.2.2 [.fail .timedOut, .ok] (.ok ()) rfl⟩

/-- C9: once every spawned task has completed, the orchestrator's collection
loop returns exactly the first error among the task outcomes in task order
(`Ok(())` when there is none): its result is determined by the full, completed
outcome list — a later task's outcome is present whether or not an earlier
one errored, so no sibling is cancelled by a failure. -/
theorem orchestrator_first_error {e : Type} (rs : List (Except e Unit)) :
    surface_first_error rs =
      (match rs.findSome? firstErr with
        | some err => .error err
        | none => .ok ()) := by
  induction rs with
  | nil => rfl
  | cons r rest ih =>
    cases r with
    | ok u =>
      cases u
      rw [show surface_first_error (Except.ok () :: rest) =
        surface_first_error rest from rfl]
      rw [show (Except.ok () :: rest).findSome? firstErr =
        rest.findSome? firstErr from rfl]
      exact ih
    | error err => rfl

end Speaker
